import Mathlib

/-!
# Verification of the MBTI top-countries dashboard pipeline

A shallow embedding of the data pipeline in `src/main.py`:
load → column normalization → country-column detection → MBTI column
detection → melt to long form → numeric coercion with per-record drop →
global fraction/percent decision → per-type dense ranking → selectors
for the single-type and multi-type views → the optional table export.

Numbers are modelled as rationals. A CSV cell is either a cell that
parses as a number (`Cell.num`) or one that `pd.to_numeric(...,
errors="coerce")` turns into NaN and that `dropna` then removes
(`Cell.txt`).  The pandas sorts used by the selectors
(`nsmallest(keep="first")` and `sort_values`) are modelled as stable
sorts (`List.insertionSort`).
-/

namespace MBTIApp

/-- One CSV cell: either a value that parses as numeric, or text that
`pd.to_numeric(..., errors="coerce")` maps to NaN. -/
inductive Cell where
  | num (q : ℚ)
  | txt (s : String)
deriving DecidableEq

/-- `pd.to_numeric(..., errors="coerce")` (main.py line 56): numeric cells
parse, anything else becomes NaN, i.e. `none`. -/
def Cell.toNumeric : Cell → Option ℚ
  | .num q => some q
  | .txt _ => none

/-- `astype(str)` (main.py line 58): the string rendering of a cell, used
for the Country column. -/
def Cell.toText : Cell → String
  | .num q => toString q
  | .txt s => s

/-- The parsed CSV: a header row and the data rows, cells addressed by
column position. -/
structure RawTable where
  columns : List String
  rows : List (List Cell)
deriving DecidableEq

/-- The country-column aliases of main.py line 42. -/
def countryAliases : List String := ["country", "countries", "nation", "name"]

/-- main.py lines 40-46: keep an exact `"Country"` column; otherwise rename
the first column whose lower-cased name is an alias; otherwise fail. -/
def detectCountry (cols : List String) : Option (List String) :=
  if cols.contains "Country" then some cols
  else
    match cols.filter (fun c => countryAliases.contains c.toLower) with
    | [] => none
    | c :: _ => some (cols.map (fun x => if x = c then "Country" else x))

/-- `re.fullmatch(r"[IE][NS][FT][PJ]", str(c))` (main.py line 49). -/
def isMBTIcode (s : String) : Bool :=
  match s.data with
  | [a, b, c, d] =>
    (a == 'I' || a == 'E') && (b == 'N' || b == 'S') &&
      (c == 'F' || c == 'T') && (d == 'P' || d == 'J')
  | _ => false

/-- The MBTI columns together with their positions (main.py line 49). -/
def mbtiIdxCols (cols : List String) : List (ℕ × String) :=
  cols.enum.filter (fun e => isMBTIcode e.2)

/-- A long-form record before ranking: one (country, type) pair. -/
structure PreRec where
  country : String
  mbti : String
  value : ℚ
  ratio : ℚ
deriving DecidableEq

/-- A fully built long-form record, with its per-type rank. -/
structure LongRecord where
  country : String
  mbti : String
  value : ℚ
  ratio : ℚ
  rank : ℕ
deriving DecidableEq

/-- `df.melt(id_vars="Country", value_vars=mbti_cols, ...)` (main.py
lines 54-55): column-major stacking — for each MBTI column in order, one
record per row, carrying the country cell's text and the value cell. -/
def meltTable (rows : List (List Cell)) (ci : ℕ) (mcols : List (ℕ × String)) :
    List (String × String × Cell) :=
  (mcols.map (fun jc =>
    rows.map (fun row =>
      ((row.getD ci (Cell.txt "")).toText, jc.2, row.getD jc.1 (Cell.txt ""))))).flatten

/-- main.py lines 56-58: coerce to numeric, drop records whose value does
not parse, and strip the country string. -/
def parseMelted (l : List (String × String × Cell)) : List (String × String × ℚ) :=
  l.filterMap (fun r => (r.2.2.toNumeric).map (fun q => (r.1.trim, r.2.1, q)))

/-- `long_df["value"].max() > 1.5` (main.py line 61).  The max of an empty
column is NaN and `NaN > 1.5` is false, hence the `none` branch. -/
def isPercentScale (vs : List ℚ) : Bool :=
  match vs.max? with
  | some m => decide (m > 3 / 2)
  | none => false

/-- main.py lines 61-64: one global decision; on the percent branch every
ratio is `value / 100`, otherwise every ratio is the value itself. -/
def applyRatio (l : List (String × String × ℚ)) : List PreRec :=
  let percent := isPercentScale (l.map (fun r => r.2.2))
  l.map (fun r =>
    { country := r.1, mbti := r.2.1, value := r.2.2,
      ratio := if percent then r.2.2 / 100 else r.2.2 })

/-- `a` is ranked strictly ahead of `e` by
`groupby("MBTI")["ratio"].rank(method="first", ascending=False)`
(main.py line 67): same group and either a strictly higher ratio, or an
equal ratio and an earlier position in the long frame. -/
def rankedAhead (a e : ℕ × PreRec) : Bool :=
  a.2.mbti == e.2.mbti &&
    (decide (e.2.ratio < a.2.ratio) ||
      (a.2.ratio == e.2.ratio && decide (a.1 < e.1)))

/-- The rank of the positioned record `e` in the long frame `ps`: one more
than the number of records of its MBTI group ranked strictly ahead of it
(main.py line 67). -/
def rankOf (ps : List PreRec) (e : ℕ × PreRec) : ℕ :=
  1 + ps.enum.countP (fun a => rankedAhead a e)

/-- The long record built from the positioned record `e`. -/
def recOf (ps : List PreRec) (e : ℕ × PreRec) : LongRecord :=
  { country := e.2.country, mbti := e.2.mbti, value := e.2.value,
    ratio := e.2.ratio, rank := rankOf ps e }

/-- main.py line 67: attach to every record its rank within its MBTI
group. -/
def assignRanks (ps : List PreRec) : List LongRecord :=
  ps.enum.map (recOf ps)

/-- The fatal load errors (the `raise ValueError` branches of main.py
lines 46 and 51). -/
inductive LoadError where
  | missingCountryColumn
  | noTypeColumns
deriving DecidableEq

/-- The data returned by `load_data`: the ranked long frame and the sorted
list of detected MBTI type codes. -/
structure LoadResult where
  records : List LongRecord
  mbtiTypes : List String
deriving DecidableEq

/-- main.py lines 39-72 (`load_data` after the file has been read): trim
the column names, find or synthesize the `Country` column, detect the MBTI
columns, melt, parse, normalize and rank. -/
def load_data (t : RawTable) : Except LoadError LoadResult :=
  let cols0 := t.columns.map String.trim
  match detectCountry cols0 with
  | none => .error .missingCountryColumn
  | some cols =>
    let mcols := mbtiIdxCols cols
    if mcols.isEmpty then .error .noTypeColumns
    else
      let ci := cols.indexOf "Country"
      let pre := applyRatio (parseMelted (meltTable t.rows ci mcols))
      .ok { records := assignRanks pre,
            mbtiTypes := (mcols.map (fun e => e.2)).insertionSort (· ≤ ·) }

/-- main.py lines 128-133: the data of the single-type chart.  Filter the
long frame to the chosen type, `nsmallest(n, columns="rank")` (the `n`
rows of smallest rank, `keep="first"`, returned in ascending rank order)
and re-sort by descending ratio. -/
def single_type_data (records : List LongRecord) (typeName : String) (n : ℕ) :
    List LongRecord :=
  let filtered := records.filter (fun r => r.mbti == typeName)
  let smallest := (filtered.insertionSort (fun a b => a.rank ≤ b.rank)).take n
  smallest.insertionSort (fun a b => b.ratio ≤ a.ratio)

/-- main.py line 167: the data of the faceted multi-type chart —
`df_long["MBTI"].isin(types) & (df_long["rank"] <= n)`. -/
def multi_type_data (records : List LongRecord) (types : List String) (n : ℕ) :
    List LongRecord :=
  records.filter (fun r => types.contains r.mbti && decide (r.rank ≤ n))

/-- The outcome of the multiple-mode interaction: either the warning path
or a built chart. -/
inductive MultiOutcome where
  | warned
  | chart (data : List LongRecord)
deriving DecidableEq

/-- main.py lines 209-213: with no chosen types the app shows a warning
and stops; otherwise it builds the faceted chart. -/
def render_multi (records : List LongRecord) (selTypes : List String) (n : ℕ) :
    MultiOutcome :=
  if selTypes.isEmpty then .warned
  else .chart (multi_type_data records selTypes n)

/-- The view mode chosen in the sidebar (main.py lines 96-108). -/
inductive ViewMode where
  | single (t : String)
  | multiple (ts : List String)

/-- `(d["ratio"] * 100).round(2)` applied to a single ratio-times-100
value: rounding to two decimal places (main.py lines 226 and 234). -/
def round2 (q : ℚ) : ℚ := (round (q * 100) : ℚ) / 100

/-- The records underlying the optional table (main.py lines 221-237):
single mode repeats the single-chart selection; multiple mode filters by
type membership and rank and sorts by (MBTI ascending, ratio descending). -/
def selected_records (records : List LongRecord) (m : ViewMode) (n : ℕ) :
    List LongRecord :=
  match m with
  | .single t => single_type_data records t n
  | .multiple ts => (multi_type_data records ts n).insertionSort
      (fun a b => a.mbti < b.mbti ∨ (a.mbti = b.mbti ∧ b.ratio ≤ a.ratio))

/-- main.py lines 226-228 / 234-236: assign
`Percentage = (ratio * 100).round(2)` and keep the columns
`["MBTI", "Country", "Percentage"]`. -/
def table_rows (records : List LongRecord) (m : ViewMode) (n : ℕ) :
    List (String × String × ℚ) :=
  (selected_records records m n).map (fun r => (r.mbti, r.country, round2 (r.ratio * 100)))

/-- The header cells of the exported table; the `Percentage` column is
renamed (main.py lines 228 and 236). -/
def csvHeaderCells : List String := ["MBTI", "Country", "비율(%)"]

/-- `.encode("utf-8-sig")` (main.py line 241), at the level of decoded
text: UTF-8 with BOM prepends the byte-order mark U+FEFF. -/
def utf8sig (s : String) : String := "\uFEFF" ++ s

/-- `file_name="mbti_top_countries.csv"` (main.py line 245). -/
def download_filename : String := "mbti_top_countries.csv"

/-- The ranking comparison stripped to what it depends on: the position in
the long frame and the ratio.  `a` is ahead of `e` if its ratio is
strictly higher, or equal with an earlier position. -/
def aheadPair (a e : ℕ × ℚ) : Bool :=
  decide (e.2 < a.2) || (a.2 == e.2 && decide (a.1 < e.1))

/-- How many entries of `E` are ranked ahead of `e`. -/
def cntAhead (E : List (ℕ × ℚ)) (e : ℕ × ℚ) : ℕ :=
  E.countP (fun a => aheadPair a e)

/-- Forget everything about a positioned record except its position and
its ratio. -/
def pairOf (e : ℕ × PreRec) : ℕ × ℚ := (e.1, e.2.ratio)

/-- The (position, ratio) pairs of the records of one MBTI group, in
encounter order. -/
def groupE (ps : List PreRec) (ty : String) : List (ℕ × ℚ) :=
  (ps.enum.filter (fun a => a.2.mbti == ty)).map pairOf

/-- The long frame ranked directly on the raw parsed values (identity
normalization), used to state that the global `/100` rescaling does not
change any rank. -/
def valueRanked (l : List (String × String × ℚ)) : List PreRec :=
  l.map (fun r => { country := r.1, mbti := r.2.1, value := r.2.2, ratio := r.2.2 })

/-- The long frame with every ratio set to value/100: the percent branch
of the normalization. -/
def scaledRanked (l : List (String × String × ℚ)) : List PreRec :=
  l.map (fun r => { country := r.1, mbti := r.2.1, value := r.2.2, ratio := r.2.2 / 100 })

/-- Extract the payload of a successful load (with an inert default), so
that concrete load results can be named in closed statements. -/
def getOk (r : Except LoadError LoadResult) : LoadResult :=
  match r with
  | .ok v => v
  | .error _ => { records := [], mbtiTypes := [] }

/-- A fractional-scale sample (Scenario A of the spec): two countries, two
types, one tie in INFP. -/
def sampleA : RawTable :=
  { columns := ["Country", "INFJ", "INFP"],
    rows := [[.txt "KR", .num (3/10), .num (2/10)],
             [.txt "US", .num (1/4), .num (2/10)]] }

/-- A percentage-scale sample with one unparsable cell (Scenarios B and D
of the spec). -/
def sampleB : RawTable :=
  { columns := ["Country", "INFJ", "INFP"],
    rows := [[.txt "KR", .num 30, .num 20],
             [.txt "US", .num 25, .txt "N/A"]] }

/-- A sample whose country column is called `nation` (Scenario C). -/
def sampleNation : RawTable :=
  { columns := [" nation ", "INFJ"],
    rows := [[.txt "KR", .num (3/10)]] }

/-- A sample with no recognizable country column. -/
def sampleNoCountry : RawTable :=
  { columns := ["region", "INFJ"],
    rows := [[.txt "KR", .num (3/10)]] }

/-- A sample whose single value lies in the gap (1, 1.5] of the scale
heuristic: it is kept as a fraction and yields a ratio above 1. -/
def sampleGap : RawTable :=
  { columns := ["Country", "INFJ"],
    rows := [[.txt "KR", .num (7/5)]] }

/-- A sample in which every INFP cell is unparsable, so the INFP partition
of the long frame is empty. -/
def sampleEmptyType : RawTable :=
  { columns := ["Country", "INFJ", "INFP"],
    rows := [[.txt "KR", .num (3/10), .txt "N/A"],
             [.txt "US", .num (1/4), .txt "-"]] }

/-! ## Basic pipeline lemmas -/

lemma load_data_ok_inv {t : RawTable} {res : LoadResult}
    (h : load_data t = .ok res) :
    ∃ cols, detectCountry (t.columns.map String.trim) = some cols ∧
      mbtiIdxCols cols ≠ [] ∧
      res.records = assignRanks (applyRatio (parseMelted
        (meltTable t.rows (cols.indexOf "Country") (mbtiIdxCols cols)))) := by
  simp only [load_data] at h
  split at h
  · cases h
  · rename_i cols hd
    split at h
    · cases h
    · rename_i hm
      cases h
      exact ⟨cols, hd, by simpa [List.isEmpty_iff] using hm, rfl⟩

lemma load_data_ok_of {t : RawTable} {cols : List String}
    (hc : detectCountry (t.columns.map String.trim) = some cols)
    (hm : mbtiIdxCols cols ≠ []) :
    load_data t = .ok
      { records := assignRanks (applyRatio (parseMelted
          (meltTable t.rows (cols.indexOf "Country") (mbtiIdxCols cols)))),
        mbtiTypes := ((mbtiIdxCols cols).map (fun e => e.2)).insertionSort (· ≤ ·) } := by
  have hm' : (mbtiIdxCols cols).isEmpty ≠ true := by
    simpa [List.isEmpty_iff] using hm
  simp only [load_data]
  rw [hc]
  simp only [hm', if_false]
  rfl

lemma assignRanks_map_value (ps : List PreRec) :
    (assignRanks ps).map (fun r => r.value) = ps.map (fun p => p.value) := by
  conv_rhs => rw [← List.enum_map_snd ps]
  rw [assignRanks, List.map_map, List.map_map]
  exact List.map_congr_left (fun e _ => rfl)

lemma applyRatio_map_value (l : List (String × String × ℚ)) :
    (applyRatio l).map (fun p => p.value) = l.map (fun r => r.2.2) := by
  rw [applyRatio, List.map_map]
  exact List.map_congr_left (fun r _ => rfl)

lemma ratio_of_mem_applyRatio {l : List (String × String × ℚ)} {p : PreRec}
    (hp : p ∈ applyRatio l) :
    p.ratio = if isPercentScale (l.map (fun r => r.2.2)) then p.value / 100
              else p.value := by
  simp only [applyRatio, List.mem_map] at hp
  obtain ⟨r, _, rfl⟩ := hp
  rfl

lemma mem_assignRanks {ps : List PreRec} {r : LongRecord}
    (h : r ∈ assignRanks ps) :
    ∃ p ∈ ps, r.country = p.country ∧ r.mbti = p.mbti ∧
      r.value = p.value ∧ r.ratio = p.ratio := by
  simp only [assignRanks, List.mem_map] at h
  obtain ⟨e, he, rfl⟩ := h
  refine ⟨e.2, ?_, rfl, rfl, rfl, rfl⟩
  obtain ⟨hlt, hget⟩ := List.getElem?_eq_some_iff.1 (List.mem_enum_iff_getElem?.1 he)
  exact hget ▸ List.getElem_mem hlt

lemma ratio_formula {t : RawTable} {res : LoadResult}
    (h : load_data t = .ok res) :
    ∀ r ∈ res.records,
      r.ratio = if isPercentScale (res.records.map (fun x => x.value))
                then r.value / 100 else r.value := by
  obtain ⟨cols, _, _, hrec⟩ := load_data_ok_inv h
  intro r hr
  rw [hrec] at hr
  obtain ⟨p, hp, _, _, hv, hratio⟩ := mem_assignRanks hr
  have hmapeq : res.records.map (fun x => x.value) =
      (parseMelted (meltTable t.rows (cols.indexOf "Country") (mbtiIdxCols cols))).map
        (fun x => x.2.2) := by
    rw [hrec, assignRanks_map_value, applyRatio_map_value]
  rw [hmapeq, hratio, hv]
  exact ratio_of_mem_applyRatio hp

/-! ## C1: the fraction-vs-percentage decision is global -/

/-- C1: the fraction-vs-percentage decision is made once for the whole
long-form record set: writing `m` for the maximum parsed value, if
`m > 1.5` then every record's ratio is its value divided by 100, and if
`m ≤ 1.5` then every record's ratio is its value unchanged — the same
branch for every record. -/
theorem ratio_decision_global (t : RawTable) (res : LoadResult) (m : ℚ)
    (h : load_data t = .ok res)
    (hm : (res.records.map (fun r => r.value)).max? = some m) :
    (3 / 2 < m → ∀ r ∈ res.records, r.ratio = r.value / 100) ∧
    (m ≤ 3 / 2 → ∀ r ∈ res.records, r.ratio = r.value) := by
  have hf := ratio_formula h
  have hps : isPercentScale (res.records.map (fun x => x.value)) =
      decide (3 / 2 < m) := by
    simp [isPercentScale, hm]
  constructor
  · intro hlt r hr
    rw [hf r hr, hps, decide_eq_true hlt, if_pos rfl]
  · intro hle r hr
    rw [hf r hr, hps, decide_eq_false (not_lt.2 hle)]
    simp

unseal Nat.gcd Rat.mul Rat.inv Rat.add Rat.sub Substring.takeWhileAux
  Substring.takeRightWhileAux String.mapAux in
/-- Witness for `ratio_decision_global` at the percent-scaled sample. -/
theorem ratio_decision_global_witness :
    load_data sampleB = .ok (getOk (load_data sampleB)) ∧
    ((getOk (load_data sampleB)).records.map (fun r => r.value)).max? = some 30 ∧
    ((3 / 2 < (30 : ℚ) →
        ∀ r ∈ (getOk (load_data sampleB)).records, r.ratio = r.value / 100) ∧
      ((30 : ℚ) ≤ 3 / 2 →
        ∀ r ∈ (getOk (load_data sampleB)).records, r.ratio = r.value)) :=
  ⟨by rfl, by rfl,
    ratio_decision_global sampleB (getOk (load_data sampleB)) 30 (by rfl) (by rfl)⟩

/-! ## C8: empty multiple-mode selection warns instead of charting -/

/-- C8: in multiple mode the warning path is taken exactly when the set of
chosen type codes is empty; no chart is built for that interaction. -/
theorem multi_empty_selection_warned (records : List LongRecord)
    (selTypes : List String) (n : ℕ) :
    render_multi records selTypes n = .warned ↔ selTypes = [] := by
  cases selTypes <;> simp [render_multi]

/-! ## C5: country-column detection -/

/-- C5: after trimming column names the loader keeps an exact `"Country"`
column if present; otherwise it renames to `"Country"` the first column
whose lower-cased name is a country alias; and if no candidate exists the
load fails with the missing-country-column error. -/
theorem country_column_detection (t : RawTable) :
    ((t.columns.map String.trim).contains "Country" = true →
      detectCountry (t.columns.map String.trim) = some (t.columns.map String.trim)) ∧
    (∀ c rest, (t.columns.map String.trim).contains "Country" = false →
      (t.columns.map String.trim).filter
          (fun x => countryAliases.contains x.toLower) = c :: rest →
      detectCountry (t.columns.map String.trim) =
        some ((t.columns.map String.trim).map
          (fun x => if x = c then "Country" else x)) ∧
      "Country" ∈ (t.columns.map String.trim).map
        (fun x => if x = c then "Country" else x)) ∧
    ((t.columns.map String.trim).contains "Country" = false →
      (t.columns.map String.trim).filter
          (fun x => countryAliases.contains x.toLower) = [] →
      load_data t = .error .missingCountryColumn) := by
  set cols := t.columns.map String.trim with hcols
  refine ⟨?_, ?_, ?_⟩
  · intro hcon
    rw [detectCountry, if_pos hcon]
  · intro c rest hcon hfil
    have hd : detectCountry cols =
        some (cols.map (fun x => if x = c then "Country" else x)) := by
      rw [detectCountry, if_neg (by rw [hcon]; exact Bool.false_ne_true), hfil]
    refine ⟨hd, ?_⟩
    have hcmem : c ∈ cols := List.mem_of_mem_filter (hfil ▸ List.mem_cons_self c rest)
    exact List.mem_map.2 ⟨c, hcmem, by rw [if_pos rfl]⟩
  · intro hcon hfil
    have hd : detectCountry cols = none := by
      rw [detectCountry, if_neg (by rw [hcon]; exact Bool.false_ne_true), hfil]
    simp only [load_data]
    rw [← hcols, hd]

unseal Nat.gcd Rat.mul Rat.inv Rat.add Rat.sub Substring.takeWhileAux
  Substring.takeRightWhileAux String.mapAux in
/-- Witness for `country_column_detection`: the exact-match, rename and
failure branches at three concrete tables. -/
theorem country_column_detection_witness :
    detectCountry (sampleA.columns.map String.trim) =
      some (sampleA.columns.map String.trim) ∧
    detectCountry (sampleNation.columns.map String.trim) =
      some ((sampleNation.columns.map String.trim).map
        (fun x => if x = "nation" then "Country" else x)) ∧
    load_data sampleNoCountry = .error .missingCountryColumn :=
  ⟨(country_column_detection sampleA).1 (by rfl),
    ((country_column_detection sampleNation).2.1 "nation" [] (by rfl) (by rfl)).1,
    (country_column_detection sampleNoCountry).2.2 (by rfl) (by rfl)⟩

/-! ## C7: empty partitions are not an error -/

/-- C7: whenever the trimmed table has a country column and at least one
MBTI column, the load succeeds no matter which records were dropped; and
for a type whose partition is empty both selectors return an empty result
set rather than an error. -/
theorem empty_partition_no_error (t : RawTable) (cols : List String)
    (hc : detectCountry (t.columns.map String.trim) = some cols)
    (hm : mbtiIdxCols cols ≠ []) :
    (∃ res, load_data t = .ok res) ∧
    (∀ res ty n, load_data t = .ok res →
      (∀ r ∈ res.records, r.mbti ≠ ty) →
      single_type_data res.records ty n = [] ∧
      multi_type_data res.records [ty] n = []) := by
  refine ⟨⟨_, load_data_ok_of hc hm⟩, ?_⟩
  intro res ty n _ hempty
  have hfil : res.records.filter (fun r => r.mbti == ty) = [] :=
    List.filter_eq_nil_iff.mpr (fun r hr => by simpa using hempty r hr)
  constructor
  · simp [single_type_data, hfil]
  · refine List.filter_eq_nil_iff.mpr (fun r hr => ?_)
    by_cases hty : r.mbti = ty
    · exact absurd hty (hempty r hr)
    · simp [hty]

unseal Nat.gcd Rat.mul Rat.inv Rat.add Rat.sub Substring.takeWhileAux
  Substring.takeRightWhileAux String.mapAux in
/-- Witness for `empty_partition_no_error` at a table whose INFP cells are
all unparsable. -/
theorem empty_partition_no_error_witness :
    detectCountry (sampleEmptyType.columns.map String.trim) =
      some ["Country", "INFJ", "INFP"] ∧
    mbtiIdxCols ["Country", "INFJ", "INFP"] ≠ [] ∧
    ((∃ res, load_data sampleEmptyType = .ok res) ∧
      (∀ res ty n, load_data sampleEmptyType = .ok res →
        (∀ r ∈ res.records, r.mbti ≠ ty) →
        single_type_data res.records ty n = [] ∧
        multi_type_data res.records [ty] n = [])) :=
  ⟨by rfl, by decide,
    empty_partition_no_error sampleEmptyType ["Country", "INFJ", "INFP"]
      (by rfl) (by decide)⟩

/-! ## C6: unparsable cells are dropped, not defaulted -/

lemma meltTable_length (rows : List (List Cell)) (ci : ℕ) (mcols : List (ℕ × String)) :
    (meltTable rows ci mcols).length = rows.length * mcols.length := by
  simp [meltTable, List.map_map, Function.comp_def, List.map_const',
    List.sum_const_nat, Nat.mul_comm]

lemma parseMelted_length (l : List (String × String × Cell)) :
    l.length = (parseMelted l).length + l.countP (fun r => r.2.2.toNumeric.isNone) := by
  rw [parseMelted, List.length_filterMap_eq_countP]
  have h := List.length_eq_countP_add_countP
    (p := fun r : String × String × Cell => r.2.2.toNumeric.isSome) (l := l)
  rw [h]
  congr 1
  · exact (List.countP_congr (fun r _ => by simp)).symm
  · refine List.countP_congr (fun r _ => ?_)
    cases hr : r.2.2.toNumeric <;> simp [hr]

/-- C6: every (row, type-column) cell whose value fails numeric parsing is
dropped from the long frame — not defaulted and not an error — so the
number of records equals rows x type-columns minus the number of
unparsable cells. -/
theorem unparsable_cells_dropped (t : RawTable) (res : LoadResult)
    (cols : List String) (h : load_data t = .ok res)
    (hc : detectCountry (t.columns.map String.trim) = some cols) :
    res.records.length =
      t.rows.length * (mbtiIdxCols cols).length -
        (meltTable t.rows (cols.indexOf "Country") (mbtiIdxCols cols)).countP
          (fun r => r.2.2.toNumeric.isNone) := by
  obtain ⟨cols2, hc2, _, hrec⟩ := load_data_ok_inv h
  obtain rfl : cols = cols2 := Option.some.inj (hc.symm.trans hc2)
  have hlen : res.records.length =
      (parseMelted (meltTable t.rows (cols.indexOf "Country") (mbtiIdxCols cols))).length := by
    rw [hrec]
    simp [assignRanks, applyRatio]
  have h1 := parseMelted_length (meltTable t.rows (cols.indexOf "Country") (mbtiIdxCols cols))
  have h2 := meltTable_length t.rows (cols.indexOf "Country") (mbtiIdxCols cols)
  omega

unseal Nat.gcd Rat.mul Rat.inv Rat.add Rat.sub Substring.takeWhileAux
  Substring.takeRightWhileAux String.mapAux in
/-- Witness for `unparsable_cells_dropped`: `sampleB` has 2 rows x 2 type
columns and one unparsable cell, hence 3 records. -/
theorem unparsable_cells_dropped_witness :
    load_data sampleB = .ok (getOk (load_data sampleB)) ∧
    detectCountry (sampleB.columns.map String.trim) =
      some ["Country", "INFJ", "INFP"] ∧
    (getOk (load_data sampleB)).records.length =
      sampleB.rows.length * (mbtiIdxCols ["Country", "INFJ", "INFP"]).length -
        (meltTable sampleB.rows (["Country", "INFJ", "INFP"].indexOf "Country")
            (mbtiIdxCols ["Country", "INFJ", "INFP"])).countP
          (fun r => r.2.2.toNumeric.isNone) :=
  ⟨by rfl, by rfl,
    unparsable_cells_dropped sampleB (getOk (load_data sampleB))
      ["Country", "INFJ", "INFP"] (by rfl) (by rfl)⟩

/-! ## C3: ratios need not lie in [0,1]; the corrected bound -/

unseal Nat.gcd Rat.mul Rat.inv Rat.add Rat.sub Substring.takeWhileAux
  Substring.takeRightWhileAux String.mapAux in
/-- C3 as stated is false: `sampleGap` is a valid table (one country
column, one type column, its only value 1.4 inside [0,100]), yet the long
frame contains a record whose ratio 1.4 lies outside [0,1] — the max 1.4
does not exceed 1.5, so the value is kept as a fraction. -/
theorem ratio_bound_counterexample :
    ∃ res, load_data sampleGap = .ok res ∧
      ∃ r ∈ res.records, ¬ (0 ≤ r.ratio ∧ r.ratio ≤ 1) := by
  refine ⟨getOk (load_data sampleGap), by rfl, ?_⟩
  refine ⟨{ country := "KR", mbti := "INFJ", value := 7/5, ratio := 7/5,
            rank := 1 }, by decide, ?_⟩
  norm_num

lemma exists_max?_of_mem {l : List ℚ} {a : ℚ} (ha : a ∈ l) :
    ∃ m, l.max? = some m := by
  cases l with
  | nil => cases ha
  | cons x xs => exact ⟨_, rfl⟩

lemma le_max?_of_mem {l : List ℚ} {a m : ℚ} (ha : a ∈ l) (hm : l.max? = some m) :
    a ≤ m :=
  (List.max?_le_iff (fun _ _ _ => max_le_iff) hm).1 (le_refl m) a ha

/-- C3 amended: if moreover every parsed value lies in [0,100] and either
every value is at most 1 or some value exceeds 1.5 (i.e. the global max
does not fall in the blind gap (1, 1.5] of the heuristic), then every
ratio lies in [0,1]. -/
theorem ratio_bound_amended (t : RawTable) (res : LoadResult)
    (h : load_data t = .ok res)
    (hrange : ∀ r ∈ res.records, 0 ≤ r.value ∧ r.value ≤ 100)
    (hgap : (∀ r ∈ res.records, r.value ≤ 1) ∨
      (∃ r ∈ res.records, 3 / 2 < r.value)) :
    ∀ r ∈ res.records, 0 ≤ r.ratio ∧ r.ratio ≤ 1 := by
  have hf := ratio_formula h
  intro r hr
  obtain ⟨hv0, hv100⟩ := hrange r hr
  rcases hgap with hall | ⟨r0, hr0, hr0v⟩
  · cases hif : isPercentScale (res.records.map (fun x => x.value)) with
    | false =>
      rw [hf r hr, hif]
      simpa using ⟨hv0, hall r hr⟩
    | true =>
      rw [hf r hr, hif]
      constructor
      · simp only [if_pos]
        positivity
      · simp only [if_pos]
        linarith
  · have hmem : r0.value ∈ res.records.map (fun x => x.value) :=
      List.mem_map.2 ⟨r0, hr0, rfl⟩
    obtain ⟨m, hm⟩ := exists_max?_of_mem hmem
    have hm32 : 3 / 2 < m := lt_of_lt_of_le hr0v (le_max?_of_mem hmem hm)
    have hif : isPercentScale (res.records.map (fun x => x.value)) = true := by
      simp [isPercentScale, hm, hm32]
    rw [hf r hr, hif]
    constructor
    · simp only [if_pos]
      positivity
    · simp only [if_pos]
      linarith

unseal Nat.gcd Rat.mul Rat.inv Rat.add Rat.sub Substring.takeWhileAux
  Substring.takeRightWhileAux String.mapAux in
/-- Witness for `ratio_bound_amended` at the fractional sample. -/
theorem ratio_bound_amended_witness :
    load_data sampleA = .ok (getOk (load_data sampleA)) ∧
    (∀ r ∈ (getOk (load_data sampleA)).records, 0 ≤ r.value ∧ r.value ≤ 100) ∧
    (∀ r ∈ (getOk (load_data sampleA)).records, r.value ≤ 1) ∧
    (∀ r ∈ (getOk (load_data sampleA)).records, 0 ≤ r.ratio ∧ r.ratio ≤ 1) :=
  ⟨by rfl, by decide, by decide,
    ratio_bound_amended sampleA (getOk (load_data sampleA)) (by rfl)
      (by decide) (Or.inl (by decide))⟩


/-! ## C10: ranking is invariant under the global rescaling -/

lemma div100_lt_div100 {a b : ℚ} : a / 100 < b / 100 ↔ a < b := by
  constructor <;> intro h <;> linarith

lemma div100_eq_div100 {a b : ℚ} : a / 100 = b / 100 ↔ a = b := by
  constructor <;> intro h <;> linarith

lemma applyRatio_eq (l : List (String × String × ℚ)) :
    applyRatio l =
      if isPercentScale (l.map (fun r => r.2.2)) then scaledRanked l
      else valueRanked l := by
  rw [applyRatio]
  cases hp : isPercentScale (l.map (fun r => r.2.2)) <;>
    simp [hp, scaledRanked, valueRanked]

lemma rankedAhead_div100 (a e : ℕ × (String × String × ℚ)) :
    rankedAhead
        (a.1, { country := a.2.1, mbti := a.2.2.1, value := a.2.2.2,
                ratio := a.2.2.2 / 100 })
        (e.1, { country := e.2.1, mbti := e.2.2.1, value := e.2.2.2,
                ratio := e.2.2.2 / 100 }) =
      rankedAhead
        (a.1, { country := a.2.1, mbti := a.2.2.1, value := a.2.2.2,
                ratio := a.2.2.2 })
        (e.1, { country := e.2.1, mbti := e.2.2.1, value := e.2.2.2,
                ratio := e.2.2.2 }) := by
  rw [Bool.eq_iff_iff]
  simp [rankedAhead, beq_iff_eq, div100_lt_div100, div100_eq_div100]

lemma map_rank_scaled (l : List (String × String × ℚ)) :
    (assignRanks (scaledRanked l)).map (fun r => r.rank) =
      (assignRanks (valueRanked l)).map (fun r => r.rank) := by
  simp only [assignRanks, scaledRanked, valueRanked, List.enum_map, List.map_map]
  refine List.map_congr_left (fun e he => ?_)
  obtain ⟨j, q⟩ := e
  simp only [Function.comp_def, recOf, rankOf]
  congr 1
  simp only [List.enum_map, List.countP_map]
  refine List.countP_congr (fun a ha => ?_)
  obtain ⟨i, r⟩ := a
  exact Bool.eq_iff_iff.mp (rankedAhead_div100 (i, r) (j, q))

/-- C10: the per-type ranking is invariant under the normalization step:
the ranks assigned from the ratios coincide with the ranks that direct
ranking of the raw parsed values would assign, whichever branch of the
1.5-threshold decision is taken. -/
theorem rank_scale_invariant (t : RawTable) (res : LoadResult)
    (cols : List String) (h : load_data t = .ok res)
    (hc : detectCountry (t.columns.map String.trim) = some cols) :
    res.records.map (fun r => r.rank) =
      (assignRanks (valueRanked (parseMelted (meltTable t.rows
        (cols.indexOf "Country") (mbtiIdxCols cols))))).map (fun r => r.rank) := by
  obtain ⟨cols2, hc2, _, hrec⟩ := load_data_ok_inv h
  obtain rfl : cols = cols2 := Option.some.inj (hc.symm.trans hc2)
  rw [hrec, applyRatio_eq]
  cases hp : isPercentScale ((parseMelted (meltTable t.rows
      (cols.indexOf "Country") (mbtiIdxCols cols))).map (fun r => r.2.2)) with
  | false => simp [hp]
  | true =>
    simp only [hp, if_true]
    exact map_rank_scaled _

unseal Nat.gcd Rat.mul Rat.inv Rat.add Rat.sub Substring.takeWhileAux
  Substring.takeRightWhileAux String.mapAux in
/-- Witness for `rank_scale_invariant` at the percent-scaled sample, where
the /100 branch is taken. -/
theorem rank_scale_invariant_witness :
    load_data sampleB = .ok (getOk (load_data sampleB)) ∧
    detectCountry (sampleB.columns.map String.trim) =
      some ["Country", "INFJ", "INFP"] ∧
    (getOk (load_data sampleB)).records.map (fun r => r.rank) =
      (assignRanks (valueRanked (parseMelted (meltTable sampleB.rows
        (["Country", "INFJ", "INFP"].indexOf "Country")
        (mbtiIdxCols ["Country", "INFJ", "INFP"]))))).map (fun r => r.rank) :=
  ⟨by rfl, by rfl,
    rank_scale_invariant sampleB (getOk (load_data sampleB))
      ["Country", "INFJ", "INFP"] (by rfl) (by rfl)⟩

/-! ## C9: the exported table -/

lemma round2_mul_inv_hundred (q : ℚ) :
    ∃ z : ℤ, round2 q = (z : ℚ) / 100 :=
  ⟨round (q * 100), rfl⟩

lemma round2_close (q : ℚ) : |round2 q - q| ≤ 1 / 200 := by
  have h : |q * 100 - round (q * 100)| ≤ 1 / 2 := abs_sub_round (q * 100)
  have heq : round2 q - q = ((round (q * 100) : ℚ) - q * 100) / 100 := by
    rw [round2]
    ring
  rw [heq, abs_div, abs_of_pos (by norm_num : (0:ℚ) < 100)]
  rw [abs_sub_comm] at h
  rw [div_le_div_iff₀ (by norm_num) (by norm_num)]
  linarith

/-- C9: every row of the exported table consists of exactly the three
columns (MBTI type code, Country, Percentage) where the percentage is the
record ratio times 100 rounded to two decimal places (an integer multiple
of 1/100 within 1/200 of the exact value); the export is UTF-8 with BOM
and is offered as `mbti_top_countries.csv`. -/
theorem table_export_format (records : List LongRecord) (m : ViewMode) (n : ℕ) :
    (∀ row ∈ table_rows records m n,
      ∃ r ∈ selected_records records m n,
        row = (r.mbti, r.country, round2 (r.ratio * 100)) ∧
        (∃ z : ℤ, round2 (r.ratio * 100) = (z : ℚ) / 100) ∧
        |round2 (r.ratio * 100) - r.ratio * 100| ≤ 1 / 200) ∧
    csvHeaderCells.length = 3 ∧
    (∀ s, utf8sig s = "\uFEFF" ++ s) ∧
    download_filename = "mbti_top_countries.csv" := by
  refine ⟨?_, rfl, fun s => rfl, rfl⟩
  intro row hrow
  obtain ⟨r, hr, rfl⟩ := List.mem_map.1 hrow
  exact ⟨r, hr, rfl, round2_mul_inv_hundred _, round2_close _⟩

unseal Nat.gcd Rat.mul Rat.inv Rat.add Rat.sub Substring.takeWhileAux
  Substring.takeRightWhileAux String.mapAux String.ltb in
/-- Witness for `table_export_format` at the fractional sample in
multiple mode. -/
theorem table_export_format_witness :
    (("INFJ", "KR", (30 : ℚ)) ∈
      table_rows (getOk (load_data sampleA)).records (.multiple ["INFJ"]) 5) ∧
    (∃ r ∈ selected_records (getOk (load_data sampleA)).records
        (.multiple ["INFJ"]) 5,
      ("INFJ", "KR", (30 : ℚ)) = (r.mbti, r.country, round2 (r.ratio * 100)) ∧
      (∃ z : ℤ, round2 (r.ratio * 100) = (z : ℚ) / 100) ∧
      |round2 (r.ratio * 100) - r.ratio * 100| ≤ 1 / 200) :=
  ⟨by decide,
    (table_export_format (getOk (load_data sampleA)).records
      (.multiple ["INFJ"]) 5).1 ("INFJ", "KR", (30 : ℚ)) (by decide)⟩

/-! ## The ranking order: basic properties of `aheadPair` -/

lemma aheadPair_iff {a e : ℕ × ℚ} :
    aheadPair a e = true ↔ (e.2 < a.2 ∨ (a.2 = e.2 ∧ a.1 < e.1)) := by
  simp [aheadPair, beq_iff_eq]

lemma aheadPair_irrefl (e : ℕ × ℚ) : aheadPair e e = false := by
  simp [aheadPair]

lemma aheadPair_trans {a b c : ℕ × ℚ} (h1 : aheadPair a b = true)
    (h2 : aheadPair b c = true) : aheadPair a c = true := by
  rw [aheadPair_iff] at h1 h2 ⊢
  rcases h1 with h1 | ⟨h1e, h1i⟩ <;> rcases h2 with h2 | ⟨h2e, h2i⟩
  · exact Or.inl (lt_trans h2 h1)
  · exact Or.inl (by rw [← h2e]; exact h1)
  · exact Or.inl (by rw [h1e]; exact h2)
  · exact Or.inr ⟨h1e.trans h2e, lt_trans h1i h2i⟩

lemma aheadPair_total {a e : ℕ × ℚ} (hne : a.1 ≠ e.1) :
    aheadPair a e = true ∨ aheadPair e a = true := by
  rw [aheadPair_iff, aheadPair_iff]
  rcases lt_trichotomy a.2 e.2 with h | h | h
  · exact Or.inr (Or.inl h)
  · rcases lt_or_gt_of_ne hne with hi | hi
    · exact Or.inl (Or.inr ⟨h, hi⟩)
    · exact Or.inr (Or.inr ⟨h.symm, hi⟩)
  · exact Or.inl (Or.inl h)

lemma aheadPair_asymm {a e : ℕ × ℚ} (h1 : aheadPair a e = true)
    (h2 : aheadPair e a = true) : False := by
  rw [aheadPair_iff] at h1 h2
  rcases h1 with h1 | ⟨h1e, h1i⟩ <;> rcases h2 with h2 | ⟨h2e, h2i⟩
  · exact absurd h1 (lt_asymm h2)
  · exact absurd h1 (by rw [h2e]; exact lt_irrefl _)
  · exact absurd h2 (by rw [h1e]; exact lt_irrefl _)
  · exact absurd h1i (by omega)

/-! ## Counting who is ahead: the ranks of a group are 1..k -/

lemma cntAhead_eq_card {E : List (ℕ × ℚ)} (hE : E.Nodup) (e : ℕ × ℚ) :
    cntAhead E e = (E.toFinset.filter (fun a => aheadPair a e)).card := by
  rw [cntAhead, List.countP_eq_length_filter, ← List.toFinset_card_of_nodup (hE.filter _),
    List.toFinset_filter]

lemma cntAhead_lt_of_ahead {E : List (ℕ × ℚ)} (hE : E.Nodup) {a e : ℕ × ℚ}
    (ha : a ∈ E) (_he : e ∈ E) (hae : aheadPair a e = true) :
    cntAhead E a < cntAhead E e := by
  rw [cntAhead_eq_card hE, cntAhead_eq_card hE]
  apply Finset.card_lt_card
  rw [Finset.ssubset_def]
  constructor
  · intro x hx
    rw [Finset.mem_filter] at hx ⊢
    exact ⟨hx.1, aheadPair_trans hx.2 hae⟩
  · intro hsub
    have hmem : a ∈ E.toFinset.filter (fun x => aheadPair x e) :=
      Finset.mem_filter.2 ⟨List.mem_toFinset.2 ha, hae⟩
    have := Finset.mem_filter.1 (hsub hmem)
    rw [aheadPair_irrefl] at this
    exact absurd this.2 (by simp)

lemma cntAhead_lt_length {E : List (ℕ × ℚ)} (hE : E.Nodup) {e : ℕ × ℚ}
    (he : e ∈ E) : cntAhead E e < E.length := by
  rw [cntAhead_eq_card hE]
  have h1 : E.toFinset.filter (fun a => aheadPair a e) ⊆ E.toFinset.erase e := by
    intro x hx
    rw [Finset.mem_filter] at hx
    refine Finset.mem_erase.2 ⟨?_, hx.1⟩
    rintro rfl
    rw [aheadPair_irrefl] at hx
    exact absurd hx.2 (by simp)
  have h2 := Finset.card_le_card h1
  have h3 := Finset.card_erase_lt_of_mem (List.mem_toFinset.2 he)
  have h4 : E.toFinset.card = E.length := List.toFinset_card_of_nodup hE
  omega

lemma cntAhead_inj {E : List (ℕ × ℚ)} (hfst : (E.map Prod.fst).Nodup) {a e : ℕ × ℚ}
    (ha : a ∈ E) (he : e ∈ E) (h : cntAhead E a = cntAhead E e) : a = e := by
  by_contra hne
  have hfne : a.1 ≠ e.1 := fun h1 =>
    hne (List.inj_on_of_nodup_map hfst ha he h1)
  rcases aheadPair_total hfne with hc | hc
  · exact absurd h (ne_of_lt (cntAhead_lt_of_ahead (hfst.of_map) ha he hc))
  · exact absurd h.symm (ne_of_lt (cntAhead_lt_of_ahead (hfst.of_map) he ha hc))

lemma cntAhead_surj {E : List (ℕ × ℚ)} (hfst : (E.map Prod.fst).Nodup) :
    ∀ k < E.length, ∃ e ∈ E, cntAhead E e = k := by
  intro k hk
  have hE : E.Nodup := hfst.of_map
  have hcard : E.toFinset.card = E.length := List.toFinset_card_of_nodup hE
  have hsurj := Finset.surj_on_of_inj_on_of_card_le
    (s := E.toFinset) (t := Finset.range E.length)
    (fun a _ => cntAhead E a)
    (fun a ha => Finset.mem_range.2 (cntAhead_lt_length hE (List.mem_toFinset.1 ha)))
    (fun a1 a2 ha1 ha2 heq =>
      cntAhead_inj hfst (List.mem_toFinset.1 ha1) (List.mem_toFinset.1 ha2) heq)
    (by rw [Finset.card_range, hcard])
  obtain ⟨a, haT, heq⟩ := hsurj k (Finset.mem_range.2 hk)
  exact ⟨a, List.mem_toFinset.1 haT, heq.symm⟩

lemma map_inc_cntAhead_nodup {E : List (ℕ × ℚ)} (hfst : (E.map Prod.fst).Nodup) :
    (E.map (fun e => 1 + cntAhead E e)).Nodup :=
  List.Nodup.map_on
    (fun a ha e he h => cntAhead_inj hfst ha he (by omega))
    hfst.of_map

lemma map_inc_cntAhead_perm {E : List (ℕ × ℚ)} (hfst : (E.map Prod.fst).Nodup) :
    (E.map (fun e => 1 + cntAhead E e)).Perm (List.range' 1 E.length) := by
  apply List.perm_of_nodup_nodup_toFinset_eq (map_inc_cntAhead_nodup hfst)
    (List.nodup_range' 1 E.length)
  ext m
  simp only [List.mem_toFinset, List.mem_map, List.mem_range']
  constructor
  · rintro ⟨e, he, rfl⟩
    exact ⟨cntAhead E e, cntAhead_lt_length hfst.of_map he, by omega⟩
  · rintro ⟨i, hi, rfl⟩
    obtain ⟨e, he, hcnt⟩ := cntAhead_surj hfst i hi
    exact ⟨e, he, by omega⟩

lemma cntAhead_lt_iff {E : List (ℕ × ℚ)} (hfst : (E.map Prod.fst).Nodup)
    {a e : ℕ × ℚ} (ha : a ∈ E) (he : e ∈ E) (hne : a.1 ≠ e.1) :
    cntAhead E a < cntAhead E e ↔ aheadPair a e = true := by
  constructor
  · intro h
    rcases aheadPair_total hne with hc | hc
    · exact hc
    · exact absurd h (not_lt_of_gt (cntAhead_lt_of_ahead hfst.of_map he ha hc))
  · exact cntAhead_lt_of_ahead hfst.of_map ha he

/-! ## From the pipeline's rank to the abstract count -/

lemma enum_fst_inj {ps : List PreRec} {e f : ℕ × PreRec} (he : e ∈ ps.enum)
    (hf : f ∈ ps.enum) (h : e.1 = f.1) : e = f :=
  List.inj_on_of_nodup_map
    (by rw [List.enum_map_fst]; exact List.nodup_range _) he hf h

lemma rankOf_eq_cntAhead (ps : List PreRec) (e : ℕ × PreRec) :
    rankOf ps e = 1 + cntAhead (groupE ps e.2.mbti) (pairOf e) := by
  rw [rankOf, groupE, cntAhead, List.countP_map, List.countP_filter]
  congr 1
  refine List.countP_congr (fun a _ => ?_)
  simp only [rankedAhead, aheadPair, pairOf, Function.comp_apply, Bool.and_eq_true,
    Bool.or_eq_true, beq_iff_eq, decide_eq_true_eq]
  tauto

lemma filter_assignRanks (ps : List PreRec) (ty : String) :
    (assignRanks ps).filter (fun r => r.mbti == ty) =
      (ps.enum.filter (fun a => a.2.mbti == ty)).map (recOf ps) := by
  rw [assignRanks, List.filter_map]
  exact congrArg _ (List.filter_congr (fun a _ => rfl))

lemma group_ranks_eq (ps : List PreRec) (ty : String) :
    ((assignRanks ps).filter (fun r => r.mbti == ty)).map (fun r => r.rank) =
      (groupE ps ty).map (fun x => 1 + cntAhead (groupE ps ty) x) := by
  rw [filter_assignRanks, List.map_map, groupE, List.map_map]
  refine List.map_congr_left (fun e he => ?_)
  have hty : e.2.mbti = ty := by simpa using (List.mem_filter.1 he).2
  show rankOf ps e = 1 + cntAhead (groupE ps ty) (pairOf e)
  rw [← hty]
  exact rankOf_eq_cntAhead ps e

lemma groupE_fst_nodup (ps : List PreRec) (ty : String) :
    ((groupE ps ty).map Prod.fst).Nodup := by
  have h1 : (groupE ps ty).map Prod.fst =
      (ps.enum.filter (fun a => a.2.mbti == ty)).map Prod.fst := by
    rw [groupE, List.map_map]
    exact List.map_congr_left (fun e _ => rfl)
  rw [h1]
  have h2 : ((ps.enum.filter (fun a => a.2.mbti == ty)).map Prod.fst).Sublist
      (ps.enum.map Prod.fst) :=
    (List.filter_sublist _).map Prod.fst
  have h3 : (ps.enum.map Prod.fst).Nodup := by
    rw [List.enum_map_fst]
    exact List.nodup_range _
  exact h3.sublist h2

lemma group_ranks_perm (ps : List PreRec) (ty : String) :
    (((assignRanks ps).filter (fun r => r.mbti == ty)).map (fun r => r.rank)).Perm
      (List.range' 1
        (((assignRanks ps).filter (fun r => r.mbti == ty)).map (fun r => r.rank)).length) := by
  rw [group_ranks_eq]
  simpa using map_inc_cntAhead_perm (groupE_fst_nodup ps ty)

lemma mem_groupE_of_getElem {ps : List PreRec} {i : ℕ} (hi : i < ps.length)
    {ty : String} (hty : (ps.get ⟨i, hi⟩).mbti = ty) :
    (i, (ps.get ⟨i, hi⟩).ratio) ∈ groupE ps ty := by
  rw [groupE]
  refine List.mem_map.2 ⟨(i, ps.get ⟨i, hi⟩), ?_, rfl⟩
  refine List.mem_filter.2 ⟨?_, by simpa using hty⟩
  rw [List.mem_enum_iff_getElem?]
  simp [List.getElem?_eq_getElem hi, List.get_eq_getElem]

lemma assignRanks_rank_lt_iff (ps : List PreRec) (i j : ℕ)
    (hi : i < (assignRanks ps).length) (hj : j < (assignRanks ps).length)
    (hty : ((assignRanks ps).get ⟨i, hi⟩).mbti = ((assignRanks ps).get ⟨j, hj⟩).mbti) :
    ((assignRanks ps).get ⟨i, hi⟩).rank < ((assignRanks ps).get ⟨j, hj⟩).rank ↔
      (((assignRanks ps).get ⟨j, hj⟩).ratio < ((assignRanks ps).get ⟨i, hi⟩).ratio ∨
        (((assignRanks ps).get ⟨i, hi⟩).ratio = ((assignRanks ps).get ⟨j, hj⟩).ratio ∧
          i < j)) := by
  have hi2 : i < ps.length := by simpa [assignRanks] using hi
  have hj2 : j < ps.length := by simpa [assignRanks] using hj
  have hgi : (assignRanks ps).get ⟨i, hi⟩ = recOf ps (i, ps.get ⟨i, hi2⟩) := by
    simp [assignRanks, List.get_eq_getElem, List.getElem_map, List.getElem_enum]
  have hgj : (assignRanks ps).get ⟨j, hj⟩ = recOf ps (j, ps.get ⟨j, hj2⟩) := by
    simp [assignRanks, List.get_eq_getElem, List.getElem_map, List.getElem_enum]
  rw [hgi, hgj] at hty ⊢
  rcases eq_or_ne i j with rfl | hne
  · have : (⟨i, hi2⟩ : Fin ps.length) = ⟨i, hj2⟩ := rfl
    simp [lt_irrefl]
  · set pi := ps.get ⟨i, hi2⟩ with hpi
    set pj := ps.get ⟨j, hj2⟩ with hpj
    have htyi : pi.mbti = pj.mbti := hty
    have hmi : (i, pi.ratio) ∈ groupE ps pi.mbti := mem_groupE_of_getElem hi2 rfl
    have hmj : (j, pj.ratio) ∈ groupE ps pi.mbti := mem_groupE_of_getElem hj2 htyi.symm
    have hranki : (recOf ps (i, pi)).rank =
        1 + cntAhead (groupE ps pi.mbti) (i, pi.ratio) := rankOf_eq_cntAhead ps (i, pi)
    have hrankj : (recOf ps (j, pj)).rank =
        1 + cntAhead (groupE ps pi.mbti) (j, pj.ratio) := by
      have := rankOf_eq_cntAhead ps (j, pj)
      rw [show (j, pj).2.mbti = pi.mbti from htyi.symm] at this
      exact this
    rw [hranki, hrankj, Nat.add_lt_add_iff_left]
    rw [cntAhead_lt_iff (groupE_fst_nodup ps pi.mbti) hmi hmj hne]
    rw [aheadPair_iff]
    rfl

/-! ## C2: per-type ranks are exactly 1..k in ratio order -/

/-- C2: for every loaded dataset and every type code, the ranks of that
type's records form a permutation of 1..k (contiguous, no gaps, no
duplicates), and for two records of the same type the lower rank goes to
the strictly higher ratio, with equal ratios ordered by their original
position in the long frame (stable "first" tie-break). -/
theorem rank_partition_contiguous (t : RawTable) (res : LoadResult)
    (h : load_data t = .ok res) (ty : String) :
    (((res.records.filter (fun r => r.mbti == ty)).map (fun r => r.rank)).Perm
      (List.range' 1
        ((res.records.filter (fun r => r.mbti == ty)).map (fun r => r.rank)).length)) ∧
    (∀ (i j : ℕ) (hi : i < res.records.length) (hj : j < res.records.length),
      (res.records.get ⟨i, hi⟩).mbti = (res.records.get ⟨j, hj⟩).mbti →
      ((res.records.get ⟨i, hi⟩).rank < (res.records.get ⟨j, hj⟩).rank ↔
        ((res.records.get ⟨j, hj⟩).ratio < (res.records.get ⟨i, hi⟩).ratio ∨
          ((res.records.get ⟨i, hi⟩).ratio = (res.records.get ⟨j, hj⟩).ratio ∧
            i < j)))) := by
  obtain ⟨cols, hc, hm, hrec⟩ := load_data_ok_inv h
  rw [hrec]
  refine ⟨group_ranks_perm _ ty, ?_⟩
  intro i j hi hj hty
  exact assignRanks_rank_lt_iff _ i j hi hj hty

unseal Nat.gcd Rat.mul Rat.inv Rat.add Rat.sub Substring.takeWhileAux
  Substring.takeRightWhileAux String.mapAux in
/-- Witness for `rank_partition_contiguous` at the fractional sample and
the INFP partition, which contains a tie. -/
theorem rank_partition_contiguous_witness :
    load_data sampleA = .ok (getOk (load_data sampleA)) ∧
    ((((getOk (load_data sampleA)).records.filter
        (fun r => r.mbti == "INFP")).map (fun r => r.rank)).Perm
      (List.range' 1
        (((getOk (load_data sampleA)).records.filter
          (fun r => r.mbti == "INFP")).map (fun r => r.rank)).length)) ∧
    (∀ (i j : ℕ) (hi : i < (getOk (load_data sampleA)).records.length)
        (hj : j < (getOk (load_data sampleA)).records.length),
      ((getOk (load_data sampleA)).records.get ⟨i, hi⟩).mbti =
        ((getOk (load_data sampleA)).records.get ⟨j, hj⟩).mbti →
      (((getOk (load_data sampleA)).records.get ⟨i, hi⟩).rank <
          ((getOk (load_data sampleA)).records.get ⟨j, hj⟩).rank ↔
        (((getOk (load_data sampleA)).records.get ⟨j, hj⟩).ratio <
            ((getOk (load_data sampleA)).records.get ⟨i, hi⟩).ratio ∨
          (((getOk (load_data sampleA)).records.get ⟨i, hi⟩).ratio =
              ((getOk (load_data sampleA)).records.get ⟨j, hj⟩).ratio ∧
            i < j)))) :=
  ⟨by rfl,
    (rank_partition_contiguous sampleA (getOk (load_data sampleA)) (by rfl) "INFP").1,
    (rank_partition_contiguous sampleA (getOk (load_data sampleA)) (by rfl) "INFP").2⟩

/-! ## C4: the single-mode selection -/

lemma take_range' : ∀ (n k s : ℕ), (List.range' s k).take n = List.range' s (min n k)
  | _, 0, _ => by simp
  | 0, _ + 1, _ => by simp
  | n + 1, k + 1, s => by
    rw [List.range'_succ, List.take_succ_cons, take_range' n k (s + 1),
      Nat.succ_min_succ, List.range'_succ]

lemma drop_range' : ∀ (n k s : ℕ), (List.range' s k).drop n = List.range' (s + n) (k - n)
  | _, 0, _ => by simp
  | 0, _ + 1, _ => by simp
  | n + 1, k + 1, s => by
    rw [List.range'_succ, List.drop_succ_cons, drop_range' n k (s + 1)]
    congr 1 <;> omega

lemma ratio_le_of_rank_lt (ps : List PreRec) (ty : String) {a b : LongRecord}
    (ha : a ∈ (assignRanks ps).filter (fun r => r.mbti == ty))
    (hb : b ∈ (assignRanks ps).filter (fun r => r.mbti == ty))
    (hab : a.rank < b.rank) : b.ratio ≤ a.ratio := by
  rw [filter_assignRanks] at ha hb
  obtain ⟨ea, hea, rfl⟩ := List.mem_map.1 ha
  obtain ⟨eb, heb, rfl⟩ := List.mem_map.1 hb
  have heaE := List.mem_filter.1 hea
  have hebE := List.mem_filter.1 heb
  have htya : ea.2.mbti = ty := by simpa using heaE.2
  have htyb : eb.2.mbti = ty := by simpa using hebE.2
  have hra : (recOf ps ea).rank = 1 + cntAhead (groupE ps ty) (pairOf ea) := by
    have h1 := rankOf_eq_cntAhead ps ea
    rw [htya] at h1
    exact h1
  have hrb : (recOf ps eb).rank = 1 + cntAhead (groupE ps ty) (pairOf eb) := by
    have h1 := rankOf_eq_cntAhead ps eb
    rw [htyb] at h1
    exact h1
  by_cases hfe : ea.1 = eb.1
  · obtain rfl : ea = eb := enum_fst_inj heaE.1 hebE.1 hfe
    exact absurd hab (lt_irrefl _)
  · have hma : pairOf ea ∈ groupE ps ty := List.mem_map.2 ⟨ea, hea, rfl⟩
    have hmb : pairOf eb ∈ groupE ps ty := List.mem_map.2 ⟨eb, heb, rfl⟩
    rw [hra, hrb, Nat.add_lt_add_iff_left] at hab
    have hahead := (cntAhead_lt_iff (groupE_fst_nodup ps ty) hma hmb hfe).1 hab
    rw [aheadPair_iff] at hahead
    rcases hahead with h1 | ⟨h1, _⟩
    · exact le_of_lt h1
    · exact le_of_eq h1.symm

lemma single_type_data_spec (ps : List PreRec) (ty : String) (n : ℕ) :
    (∀ r, r ∈ single_type_data (assignRanks ps) ty n ↔
        (r ∈ assignRanks ps ∧ r.mbti = ty ∧ r.rank ≤ n)) ∧
    (single_type_data (assignRanks ps) ty n).Pairwise (fun a b => a.rank < b.rank) ∧
    (single_type_data (assignRanks ps) ty n).Pairwise (fun a b => b.ratio ≤ a.ratio) ∧
    (((assignRanks ps).filter (fun r => r.mbti == ty)).length ≤ n →
      (single_type_data (assignRanks ps) ty n).Perm
        ((assignRanks ps).filter (fun r => r.mbti == ty))) := by
  haveI htot : IsTotal LongRecord (fun a b => a.rank ≤ b.rank) :=
    ⟨fun a b => Nat.le_total _ _⟩
  haveI htrans : IsTrans LongRecord (fun a b => a.rank ≤ b.rank) :=
    ⟨fun a b c hab hbc => Nat.le_trans hab hbc⟩
  set grp := (assignRanks ps).filter (fun r => r.mbti == ty) with hgrp
  set S := grp.insertionSort (fun a b => a.rank ≤ b.rank) with hSdef
  have hSperm : S.Perm grp := List.perm_insertionSort _ _
  have hSsorted : S.Sorted (fun a b => a.rank ≤ b.rank) := List.sorted_insertionSort _ _
  have hRperm : (grp.map (fun r => r.rank)).Perm
      (List.range' 1 (grp.map (fun r => r.rank)).length) := group_ranks_perm ps ty
  have hRnodup : (grp.map (fun r => r.rank)).Nodup :=
    hRperm.nodup_iff.2 (List.nodup_range' _ _)
  have hSRperm : (S.map (fun r => r.rank)).Perm (grp.map (fun r => r.rank)) :=
    hSperm.map _
  have hSRnodup : (S.map (fun r => r.rank)).Nodup := hSRperm.nodup_iff.2 hRnodup
  have hSne : S.Pairwise (fun a b => a.rank ≠ b.rank) := List.pairwise_map.1 hSRnodup
  have hSlt : S.Pairwise (fun a b => a.rank < b.rank) :=
    (hSsorted.and hSne).imp (fun h => Nat.lt_of_le_of_ne h.1 h.2)
  have hmapS : S.map (fun r => r.rank) =
      List.range' 1 (grp.map (fun r => r.rank)).length := by
    haveI : IsAntisymm ℕ (· < ·) :=
      ⟨fun a b h1 h2 => absurd (Nat.lt_trans h1 h2) (Nat.lt_irrefl a)⟩
    exact List.eq_of_perm_of_sorted (hSRperm.trans hRperm)
      (List.pairwise_map.2 hSlt) (List.pairwise_lt_range' _ _)
  have hmem_take : ∀ r, r ∈ S.take n ↔ r ∈ grp ∧ r.rank ≤ n := by
    intro r
    constructor
    · intro hr
      refine ⟨hSperm.subset (List.mem_of_mem_take hr), ?_⟩
      have h1 : r.rank ∈ (S.take n).map (fun x => x.rank) := List.mem_map_of_mem _ hr
      rw [List.map_take, hmapS, take_range'] at h1
      obtain ⟨i, hi, hm⟩ := List.mem_range'.1 h1
      omega
    · rintro ⟨hrg, hrn⟩
      have hrS : r ∈ S := hSperm.mem_iff.2 hrg
      by_contra hnot
      have hrS2 : r ∈ S.take n ++ S.drop n := by
        rw [List.take_append_drop]
        exact hrS
      have hdrop : r ∈ S.drop n := by
        rcases List.mem_append.1 hrS2 with h1 | h1
        · exact absurd h1 hnot
        · exact h1
      have h1 : r.rank ∈ (S.drop n).map (fun x => x.rank) := List.mem_map_of_mem _ hdrop
      rw [List.map_drop, hmapS, drop_range'] at h1
      obtain ⟨i, hi, hm⟩ := List.mem_range'.1 h1
      omega
  have htake_lt : (S.take n).Pairwise (fun a b => a.rank < b.rank) :=
    hSlt.sublist (List.take_sublist n S)
  have htake_ratio : (S.take n).Pairwise (fun a b => b.ratio ≤ a.ratio) := by
    refine htake_lt.imp_of_mem (fun {a b} ha hb hab => ?_)
    have hag : a ∈ grp := hSperm.subset (List.mem_of_mem_take ha)
    have hbg : b ∈ grp := hSperm.subset (List.mem_of_mem_take hb)
    rw [hgrp] at hag hbg
    exact ratio_le_of_rank_lt ps ty hag hbg hab
  have hsel : single_type_data (assignRanks ps) ty n = S.take n := by
    simp only [single_type_data]
    rw [← hgrp, ← hSdef]
    exact List.Sorted.insertionSort_eq htake_ratio
  refine ⟨?_, ?_, ?_, ?_⟩
  · intro r
    rw [hsel, hmem_take]
    constructor
    · rintro ⟨hrg, hrn⟩
      rw [hgrp] at hrg
      have h1 := List.mem_filter.1 hrg
      exact ⟨h1.1, by simpa using h1.2, hrn⟩
    · rintro ⟨hrm, hty2, hrn⟩
      refine ⟨?_, hrn⟩
      rw [hgrp]
      exact List.mem_filter.2 ⟨hrm, by simpa using hty2⟩
  · rw [hsel]
    exact htake_lt
  · rw [hsel]
    exact htake_ratio
  · intro hkn
    rw [hsel]
    have hSlen : S.length = grp.length := hSperm.length_eq
    rw [List.take_of_length_le (by omega : S.length ≤ n)]
    exact hSperm

/-- C4: the single-mode selection returns exactly the records of the
chosen type whose rank is at most `n`, ordered by strictly ascending rank
(equivalently non-increasing ratio); when the type has at most `n`
records, the whole partition is returned (as a permutation), without
error. -/
theorem select_top_single (t : RawTable) (res : LoadResult)
    (h : load_data t = .ok res) (ty : String) (n : ℕ) :
    (∀ r, r ∈ single_type_data res.records ty n ↔
        (r ∈ res.records ∧ r.mbti = ty ∧ r.rank ≤ n)) ∧
    (single_type_data res.records ty n).Pairwise (fun a b => a.rank < b.rank) ∧
    (single_type_data res.records ty n).Pairwise (fun a b => b.ratio ≤ a.ratio) ∧
    ((res.records.filter (fun r => r.mbti == ty)).length ≤ n →
      (single_type_data res.records ty n).Perm
        (res.records.filter (fun r => r.mbti == ty))) := by
  obtain ⟨cols, hc, hm, hrec⟩ := load_data_ok_inv h
  rw [hrec]
  exact single_type_data_spec _ ty n

unseal Nat.gcd Rat.mul Rat.inv Rat.add Rat.sub Substring.takeWhileAux
  Substring.takeRightWhileAux String.mapAux in
/-- Witness for `select_top_single` at the fractional sample: INFJ, top 5,
where the partition has only two records. -/
theorem select_top_single_witness :
    load_data sampleA = .ok (getOk (load_data sampleA)) ∧
    ((∀ r, r ∈ single_type_data (getOk (load_data sampleA)).records "INFJ" 5 ↔
        (r ∈ (getOk (load_data sampleA)).records ∧ r.mbti = "INFJ" ∧ r.rank ≤ 5)) ∧
      (single_type_data (getOk (load_data sampleA)).records "INFJ" 5).Pairwise
        (fun a b => a.rank < b.rank) ∧
      (single_type_data (getOk (load_data sampleA)).records "INFJ" 5).Pairwise
        (fun a b => b.ratio ≤ a.ratio) ∧
      (((getOk (load_data sampleA)).records.filter
          (fun r => r.mbti == "INFJ")).length ≤ 5 →
        (single_type_data (getOk (load_data sampleA)).records "INFJ" 5).Perm
          ((getOk (load_data sampleA)).records.filter
            (fun r => r.mbti == "INFJ")))) :=
  ⟨by rfl,
    select_top_single sampleA (getOk (load_data sampleA)) (by rfl) "INFJ" 5⟩

end MBTIApp
